import Mathlib

/-!
Verification of `environment.py` (liberapay/environment.py, version 1.0.0).

The library parses a whitelisted subset of a process environment into typed
values.  The heart is the static method `Environment.parse(prefix, spec,
environ, encoding)` together with the constructor `Environment.__init__`, the
attribute accessors `__getattr__`/`__setattr__`, and the helper typecaster
`is_yesish`.

Shallow embedding notes:

* Python `dict`s are modelled as association lists (`List (key × value)`) in
  insertion order with unique keys; where a proof needs uniqueness it carries
  an explicit `Nodup` hypothesis on the key list.  `dict[k] = v` is `dictSet`
  (replace in place, else append), lookup is `lookupD` (first match),
  `k in d` is `hasKey`, and `d.update(other)` is `dictUpdate`.
* Python strings are Lean `String`s; string comparison (used by `sorted`) is
  lexicographic on code points, modelled by `lexLtB`/`lexLeB` on `List Char`
  (Python compares strings by unicode code points).  `sorted(environ.items())`
  compares (name, value) tuples lexicographically, modelled by `pairLe`.
* `str.lower` is modelled by `pyLower`, which lowercases the ASCII range; the
  keys and strings in the claims are case-mapped identically by CPython's
  `str.lower` and by this model.
* A typecaster is any callable; applying it either returns a value or raises
  an exception.  This is modelled as `String → Except PyExc Value` where
  `PyExc` carries the exception class name (`type(e).__name__`) and the
  exception text (`str(e)`).  The bare `except:` in `parse` catches every
  exception, so totality of the Lean function is faithful.
* The `encoding` parameter of `parse` is `None` whenever `environ` is supplied
  by the caller (and always under Python 3), in which case the
  `value.decode(encoding)` branch is skipped; the claims all concern this
  path, so `parse` is modelled without the decoding step.
-/

namespace EnvPy

/-- Result values produced by typecasters (`int`, `str`, `is_yesish`, ...). -/
inductive Value where
  | vstr (s : String)
  | vint (n : Int)
  | vbool (b : Bool)
deriving DecidableEq

/-- A Python exception as observed by `parse`: the class name
(`sys.exc_info()[0].__name__`) and the message (`str` of the instance). -/
structure PyExc where
  ename : String
  emsg : String
deriving DecidableEq

/-- A caller-supplied typecaster: a function from the raw string to a value,
which may raise. -/
abbrev Typecaster := String → Except PyExc Value

/-- The `spec` dict: variable name ↦ typecaster. -/
abbrev SpecMap := List (String × Typecaster)

/-- The `environ` dict: variable name ↦ raw string value. -/
abbrev EnvMap := List (String × String)

/-- The `parsed` dict: lowercased attribute name ↦ typecast value. -/
abbrev ParsedMap := List (String × Value)

/-- Dict lookup `d[k]` (first matching key; dict keys are unique). -/
def lookupD {α : Type} : List (String × α) → String → Option α
  | [], _ => none
  | (k, v) :: rest, key => if k = key then some v else lookupD rest key

/-- Dict membership `key in d`. -/
def hasKey {α : Type} (d : List (String × α)) (key : String) : Bool :=
  d.any (fun e => e.1 = key)

/-- Dict assignment `d[key] = v`: replace in place if present, else append
(Python dicts preserve insertion order). -/
def dictSet {α : Type} : List (String × α) → String → α → List (String × α)
  | [], key, v => [(key, v)]
  | (k, w) :: rest, key, v =>
      if k = key then (key, v) :: rest else (k, w) :: dictSet rest key v

/-- Dict update `d.update(other)`: assign every item of `other` into `d`. -/
def dictUpdate {α : Type} (d other : List (String × α)) : List (String × α) :=
  other.foldl (fun acc e => dictSet acc e.1 e.2) d

/-- Python `str.lower` on one character (ASCII range; see module note). -/
def pyCharLower (c : Char) : Char :=
  if 65 ≤ c.toNat ∧ c.toNat ≤ 90 then Char.ofNat (c.toNat + 32) else c

/-- Python `str.lower` (ASCII range; see module note). -/
def pyLower (s : String) : String := String.mk (s.data.map pyCharLower)

/-- Python `name.startswith(p)` on the underlying character lists. -/
def strStarts : List Char → List Char → Bool
  | [], _ => true
  | _ :: _, [] => false
  | a :: ps, b :: ss => a = b && strStarts ps ss

/-- Python `name.startswith(p)` on strings. -/
def startsW (p s : String) : Bool := strStarts p.data s.data

/-- Python slice `name[len(p):]`. -/
def dropPfx (p s : String) : String := String.mk (s.data.drop p.data.length)

/-- Python `<` on strings: lexicographic comparison of code points. -/
def lexLtB : List Char → List Char → Bool
  | [], [] => false
  | [], _ :: _ => true
  | _ :: _, [] => false
  | a :: as, b :: bs =>
      if a.toNat < b.toNat then true
      else if b.toNat < a.toNat then false
      else lexLtB as bs

/-- Python `<=` on strings: lexicographic comparison of code points. -/
def lexLeB : List Char → List Char → Bool
  | [], _ => true
  | _ :: _, [] => false
  | a :: as, b :: bs =>
      if a.toNat < b.toNat then true
      else if b.toNat < a.toNat then false
      else lexLeB as bs

/-- Strict string order used by `sorted`. -/
def strLt (a b : String) : Prop := lexLtB a.data b.data = true

/-- Reflexive string order used by `sorted`. -/
def strLe (a b : String) : Prop := lexLeB a.data b.data = true

instance : DecidableRel strLt := fun a b => inferInstanceAs (Decidable (_ = true))

instance : DecidableRel strLe := fun a b => inferInstanceAs (Decidable (_ = true))

/-- Python tuple comparison on `(name, value)` pairs, as used by
`sorted(environ.items())`. -/
def pairLeB (e f : String × String) : Bool :=
  if lexLtB e.1.data f.1.data then true
  else if lexLtB f.1.data e.1.data then false
  else lexLeB e.2.data f.2.data

/-- Python tuple comparison as a relation. -/
def pairLe (e f : String × String) : Prop := pairLeB e f = true

instance : DecidableRel pairLe := fun a b => inferInstanceAs (Decidable (_ = true))

/-- Python `sorted` on a list of strings. -/
def sortStrs (l : List String) : List String := List.insertionSort strLe l

/-- Python `sorted` on `environ.items()`. -/
def sortPairs (l : List (String × String)) : List (String × String) :=
  List.insertionSort pairLe l

/-- The key list of `set(spec)` (dedup models the set view of dict keys). -/
def specKeys (spec : SpecMap) : List String := (spec.map Prod.fst).dedup

/-- Line `missing = sorted(list(set(spec) - set(environ)))` of `parse`.  Note
the source compares the raw spec keys with the raw environ keys: the prefix is
not applied here. -/
def missingOf (spec : SpecMap) (environ : EnvMap) : List String :=
  sortStrs ((specKeys spec).filter (fun k => !(hasKey environ k)))

/-- Message formatting of the `except` branch of `parse`. -/
def fmtExc (ex : PyExc) : String := ex.ename ++ ": " ++ ex.emsg

/-- One iteration of the `for name, value in sorted(environ.items())` loop of
`parse`, threading the `malformed` and `parsed` accumulators. -/
def parseStep (pfxS : String) (spec : SpecMap)
    (acc : List (String × String) × ParsedMap) (entry : String × String) :
    List (String × String) × ParsedMap :=
  if startsW pfxS entry.1 then
    let unpfx := dropPfx pfxS entry.1
    match lookupD spec unpfx with
    | none => acc
    | some tc =>
        match tc entry.2 with
        | Except.error ex => (acc.1 ++ [(entry.1, fmtExc ex)], acc.2)
        | Except.ok v => (acc.1, dictSet acc.2 (pyLower unpfx) v)
  else acc

/-- `Environment.parse(prefix, spec, environ, None)`: returns
`(missing, malformed, parsed)`. -/
def parse (pfxS : String) (spec : SpecMap) (environ : EnvMap) :
    List String × List (String × String) × ParsedMap :=
  (missingOf spec environ, (sortPairs environ).foldl (parseStep pfxS spec) ([], []))

/-- The `Environment` object state after `__init__` (the six instance
attributes; the field holding the name prefix is called `pfx` here because
Lean reserves the source's identifier). -/
structure Environment where
  environ : EnvMap
  parsed : ParsedMap
  pfx : String
  missing : List String
  malformed : List (String × String)
  spec : SpecMap

/-- Result of `Environment.__init__` together with the final contents of the
two caller-supplied dicts.  Python passes dicts by reference: `__init__` only
reads `environ` (it takes `environ.copy()`), but it executes `spec.update(kw)`
on the caller's `spec` dict, so the caller observes `dictUpdate spec kw`
afterward.  `callerSpecAfter` is `none` when the caller passed no spec dict. -/
structure InitResult where
  env : Environment
  callerSpecAfter : Option SpecMap
  callerEnvironAfter : EnvMap

/-- `Environment.__init__(prefix, spec, environ, **kw)` for a caller-supplied
`environ` (so `_encoding` is `None`). -/
def initEnv (pfxS : String) (specArg : Option SpecMap) (environArg : EnvMap)
    (kw : SpecMap) : InitResult :=
  let envCopy := environArg
  let spec1 := dictUpdate (match specArg with | none => [] | some s => s) kw
  let r := parse pfxS spec1 envCopy
  { env := { environ := envCopy, parsed := r.2.2, pfx := pfxS,
             missing := r.1, malformed := r.2.1, spec := spec1 }
  , callerSpecAfter := specArg.map (fun s => dictUpdate s kw)
  , callerEnvironAfter := environArg }

/-- Results of Python attribute access on an `Environment` instance: one of
the six instance attributes stored in `__dict__`, an attribute resolved on
the class (for example the `parse` static method — a callable outside the
`Value` universe, identified here by its name), a parsed value served by
`__getattr__`, or the `AttributeError` raised by `__getattr__`. -/
inductive AttrValue where
  | ofEnviron (e : EnvMap)
  | ofParsed (p : ParsedMap)
  | ofStr (s : String)
  | ofNames (l : List String)
  | ofPairs (l : List (String × String))
  | ofSpec (s : SpecMap)
  | ofClassAttr (name : String)
  | ofValue (v : Value)
  | attrError (msg : String)

/-- The six instance attribute names set by `__init__` (they live in the
instance `__dict__`, so ordinary lookup finds them before the class and
before `__getattr__`). -/
def fixedAttrNames : List String :=
  ["environ", "parsed", "prefix", "missing", "malformed", "spec"]

/-- Names in `Environment`'s class dict other than the six data defaults
(which are shadowed by the instance attributes after `__init__`): the
`parse` static method, the methods defined in the class body, and the
entries CPython adds to every class namespace. -/
def classAttrNames : List String :=
  ["parse", "__init__", "__getattr__", "__setattr__",
   "__module__", "__qualname__", "__doc__", "__dict__", "__weakref__"]

/-- Attribute names inherited from the base class `object` (CPython's set;
every one of them is a dunder name). -/
def objectAttrNames : List String :=
  ["__class__", "__delattr__", "__dir__", "__eq__", "__format__", "__ge__",
   "__getattribute__", "__gt__", "__hash__", "__init_subclass__", "__le__",
   "__lt__", "__ne__", "__new__", "__reduce__", "__reduce_ex__", "__repr__",
   "__sizeof__", "__str__", "__subclasshook__"]

/-- Python attribute access `getattr(E, name)` following the attribute
protocol: instance `__dict__` first (the six attributes set by `__init__`;
none of the class attributes that could shadow them is a data descriptor, so
for the states built by `__init__` the instance wins), then the class and its
base `object` (methods and dunders, resolved as `ofClassAttr`), and only when
all of that fails `Environment.__getattr__`, which serves
`self.parsed[name]` or raises `AttributeError`. -/
def pyGetattr (E : Environment) (name : String) : AttrValue :=
  if name = "environ" then AttrValue.ofEnviron E.environ
  else if name = "parsed" then AttrValue.ofParsed E.parsed
  else if name = "prefix" then AttrValue.ofStr E.pfx
  else if name = "missing" then AttrValue.ofNames E.missing
  else if name = "malformed" then AttrValue.ofPairs E.malformed
  else if name = "spec" then AttrValue.ofSpec E.spec
  else if name ∈ classAttrNames ∨ name ∈ objectAttrNames then
    AttrValue.ofClassAttr name
  else
    match lookupD E.parsed name with
    | some v => AttrValue.ofValue v
    | none =>
        AttrValue.attrError
          ("'Environment' object has no attribute '" ++ name ++ "'")

/-- The typecaster `is_yesish`: `value.lower() in ('1', 'true', 'yes')`. -/
def is_yesish (value : String) : Bool :=
  (["1", "true", "yes"] : List String).contains (pyLower value)

/-- The contribution of one environment item to `malformed` (the `except`
branch of the loop body of `parse`). -/
def malfEntry (pfxS : String) (spec : SpecMap) (e : String × String) :
    Option (String × String) :=
  if startsW pfxS e.1 then
    match lookupD spec (dropPfx pfxS e.1) with
    | none => none
    | some tc =>
        match tc e.2 with
        | Except.error ex => some (e.1, fmtExc ex)
        | Except.ok _ => none
  else none

/-- The contribution of one environment item to `parsed` (the store step of
the loop body of `parse`): the storage key and typecast value, if the item
passes the filters and the typecast succeeds. -/
def okEntry (pfxS : String) (spec : SpecMap) (e : String × String) :
    Option (String × Value) :=
  if startsW pfxS e.1 then
    match lookupD spec (dropPfx pfxS e.1) with
    | none => none
    | some tc =>
        match tc e.2 with
        | Except.error _ => none
        | Except.ok v => some (pyLower (dropPfx pfxS e.1), v)
  else none

/-- The `parsed` accumulator after the loop of `parse` runs over `l`. -/
def parsedFold (pfxS : String) (spec : SpecMap) (l : List (String × String))
    (p : ParsedMap) : ParsedMap :=
  l.foldl
    (fun p e =>
      match okEntry pfxS spec e with
      | some kv => dictSet p kv.1 kv.2
      | none => p) p

/-- Whether one environment item stores a value under `key` in `parsed`. -/
def writesKeyB (pfxS : String) (spec : SpecMap) (key : String)
    (e : String × String) : Bool :=
  match okEntry pfxS spec e with
  | some kv => decide (kv.1 = key)
  | none => false

/-- Missing list as the specification document words it: spec keys whose
PREFIXED form is not a key of the environment, sorted ascending.  This is the
spec-side definition, kept separate so it can be compared against the
source-side `parse`/`missingOf` (which subtracts the raw spec keys from the
raw environ keys, without applying the prefix). -/
def missingSpecSide (pfxS : String) (spec : SpecMap) (environ : EnvMap) :
    List String :=
  sortStrs ((specKeys spec).filter (fun k => !(hasKey environ (pfxS ++ k))))

/-- Sample typecaster: `str` under Python 3, the pass-through text caster. -/
def strCaster : Typecaster := fun s => Except.ok (Value.vstr s)

/-- Sample typecaster behaving like `int` applied to a non-numeric string: it
raises `ValueError` with the message `int()` produces. -/
def valueErrorCaster : Typecaster := fun s =>
  Except.error ⟨"ValueError", "invalid literal for int() with base 10: '" ++ s ++ "'"⟩

/-- The typecaster `is_yesish` as it is used in a spec mapping (it never
raises on a string input). -/
def yesishCaster : Typecaster := fun s => Except.ok (Value.vbool (is_yesish s))

/-! ### Order lemmas for the sort relations -/

theorem lexLeB_total : ∀ a b : List Char, lexLeB a b = true ∨ lexLeB b a = true
  | [], _ => Or.inl rfl
  | _ :: _, [] => Or.inr rfl
  | a :: as, b :: bs => by
      by_cases hab : a.toNat < b.toNat
      · exact Or.inl (by simp [lexLeB, hab])
      · by_cases hba : b.toNat < a.toNat
        · exact Or.inr (by simp [lexLeB, hba, hab])
        · rcases lexLeB_total as bs with h | h
          · exact Or.inl (by simp [lexLeB, hab, hba, h])
          · exact Or.inr (by simp [lexLeB, hab, hba, h])

theorem lexLeB_refl : ∀ a : List Char, lexLeB a a = true
  | [] => rfl
  | a :: as => by simp [lexLeB, lexLeB_refl as]

theorem lexLeB_antisymm : ∀ {a b : List Char},
    lexLeB a b = true → lexLeB b a = true → a = b
  | [], [], _, _ => rfl
  | [], _ :: _, _, h => by simp [lexLeB] at h
  | _ :: _, [], h, _ => by simp [lexLeB] at h
  | a :: as, b :: bs, hab, hba => by
      by_cases h1 : a.toNat < b.toNat
      · simp [lexLeB, h1, Nat.lt_asymm h1] at hba
      · by_cases h2 : b.toNat < a.toNat
        · simp [lexLeB, h1, h2] at hab
        · have hc : a = b :=
            Char.ext (UInt32.ext (Nat.le_antisymm (Nat.le_of_not_lt h2) (Nat.le_of_not_lt h1)))
          simp only [lexLeB, if_neg h1, if_neg h2] at hab
          simp only [lexLeB, if_neg h2, if_neg h1] at hba
          rw [hc, lexLeB_antisymm hab hba]

theorem lexLeB_trans : ∀ {a b c : List Char},
    lexLeB a b = true → lexLeB b c = true → lexLeB a c = true
  | [], _, _, _, _ => rfl
  | _ :: _, [], _, h, _ => by simp [lexLeB] at h
  | _ :: _, _ :: _, [], _, h => by simp [lexLeB] at h
  | a :: as, b :: bs, c :: cs, hab, hbc => by
      by_cases h1 : a.toNat < b.toNat
      · by_cases h2 : b.toNat < c.toNat
        · simp [lexLeB, Nat.lt_trans h1 h2]
        · by_cases h3 : c.toNat < b.toNat
          · simp [lexLeB, h2, h3] at hbc
          · have : b.toNat = c.toNat := Nat.le_antisymm (Nat.le_of_not_lt h3) (Nat.le_of_not_lt h2)
            simp [lexLeB, this ▸ h1]
      · by_cases h2 : b.toNat < a.toNat
        · simp [lexLeB, h1, h2] at hab
        · have hba : a.toNat = b.toNat := Nat.le_antisymm (Nat.le_of_not_lt h2) (Nat.le_of_not_lt h1)
          by_cases h3 : b.toNat < c.toNat
          · simp [lexLeB, hba ▸ h3]
          · by_cases h4 : c.toNat < b.toNat
            · simp [lexLeB, h3, h4] at hbc
            · simp only [lexLeB, if_neg h1, if_neg h2] at hab
              simp only [lexLeB, if_neg h3, if_neg h4] at hbc
              have h5 : ¬ a.toNat < c.toNat := by omega
              have h6 : ¬ c.toNat < a.toNat := by omega
              simp [lexLeB, h5, h6, lexLeB_trans hab hbc]

theorem lexLtB_le : ∀ {a b : List Char}, lexLtB a b = true → lexLeB a b = true
  | [], [], h => by simp [lexLtB] at h
  | [], _ :: _, _ => rfl
  | _ :: _, [], h => by simp [lexLtB] at h
  | a :: as, b :: bs, h => by
      by_cases h1 : a.toNat < b.toNat
      · simp [lexLeB, h1]
      · by_cases h2 : b.toNat < a.toNat
        · simp [lexLtB, h1, h2] at h
        · simp only [lexLtB, if_neg h1, if_neg h2] at h
          simp [lexLeB, h1, h2, lexLtB_le h]

theorem lexLtB_not_le : ∀ {a b : List Char}, lexLtB a b = true → lexLeB b a = false
  | [], [], h => by simp [lexLtB] at h
  | [], _ :: _, _ => rfl
  | _ :: _, [], h => by simp [lexLtB] at h
  | a :: as, b :: bs, h => by
      by_cases h1 : a.toNat < b.toNat
      · simp [lexLeB, Nat.lt_asymm h1, h1]
      · by_cases h2 : b.toNat < a.toNat
        · simp [lexLtB, h1, h2] at h
        · simp only [lexLtB, if_neg h1, if_neg h2] at h
          simp [lexLeB, h1, h2, lexLtB_not_le h]

instance : IsTotal String strLe := ⟨fun a b => lexLeB_total a.data b.data⟩

instance : IsTrans String strLe := ⟨fun _ _ _ => lexLeB_trans⟩

instance : IsRefl String strLe := ⟨fun a => lexLeB_refl a.data⟩

theorem strLe_antisymm {a b : String} (hab : strLe a b) (hba : strLe b a) : a = b := by
  cases a; cases b
  exact congrArg String.mk (lexLeB_antisymm hab hba)

instance : IsAntisymm String strLe := ⟨fun _ _ => strLe_antisymm⟩

theorem lexLtB_of_not_le : ∀ {a b : List Char}, lexLeB b a = false → lexLtB a b = true
  | [], [], h => by simp [lexLeB] at h
  | [], _ :: _, _ => rfl
  | _ :: _, [], h => by simp [lexLeB] at h
  | a :: as, b :: bs, h => by
      by_cases h1 : a.toNat < b.toNat
      · simp [lexLtB, h1]
      · by_cases h2 : b.toNat < a.toNat
        · simp [lexLeB, h2] at h
        · simp only [lexLeB, if_neg h2, if_neg h1] at h
          simp [lexLtB, h1, h2, lexLtB_of_not_le h]

theorem lexLtB_eq_false_iff {a b : List Char} : lexLtB a b = false ↔ lexLeB b a = true := by
  constructor
  · intro h
    cases hle : lexLeB b a with
    | true => rfl
    | false => rw [lexLtB_of_not_le hle] at h; exact h ▸ rfl
  · intro h
    cases hlt : lexLtB a b with
    | false => rfl
    | true => rw [lexLtB_not_le hlt] at h; exact h.symm ▸ rfl

theorem lexEq_of_not_lt {a b : List Char}
    (h1 : lexLtB a b = false) (h2 : lexLtB b a = false) : a = b :=
  lexLeB_antisymm (lexLtB_eq_false_iff.mp h2) (lexLtB_eq_false_iff.mp h1)

theorem lexLtB_trans {a b c : List Char}
    (h1 : lexLtB a b = true) (h2 : lexLtB b c = true) : lexLtB a c = true := by
  cases hac : lexLtB a c with
  | true => rfl
  | false =>
    have hca : lexLeB c a = true := lexLtB_eq_false_iff.mp hac
    have hcb : lexLeB c b = true := lexLeB_trans hca (lexLtB_le h1)
    rw [lexLtB_not_le h2] at hcb
    exact hcb

theorem lexLtB_irrefl (a : List Char) : lexLtB a a = false :=
  lexLtB_eq_false_iff.mpr (lexLeB_refl a)

theorem strDataEq : ∀ {a b : String}, a.data = b.data → a = b
  | ⟨_⟩, ⟨_⟩, h => congrArg String.mk h

theorem pairLe_total : ∀ a b : String × String, pairLe a b ∨ pairLe b a := by
  intro a b
  cases h1 : lexLtB a.1.data b.1.data with
  | true => exact Or.inl (by simp [pairLe, pairLeB, h1])
  | false =>
    cases h2 : lexLtB b.1.data a.1.data with
    | true => exact Or.inr (by simp [pairLe, pairLeB, h2])
    | false =>
      rcases lexLeB_total a.2.data b.2.data with h | h
      · exact Or.inl (by simp [pairLe, pairLeB, h1, h2, h])
      · exact Or.inr (by simp [pairLe, pairLeB, h1, h2, h])

instance : IsTotal (String × String) pairLe := ⟨pairLe_total⟩

theorem pairLe_trans : ∀ {a b c : String × String}, pairLe a b → pairLe b c → pairLe a c := by
  intro a b c hab hbc
  simp only [pairLe, pairLeB] at hab hbc ⊢
  cases h1 : lexLtB a.1.data b.1.data with
  | true =>
    cases h2 : lexLtB b.1.data c.1.data with
    | true => simp [lexLtB_trans h1 h2]
    | false =>
      cases h3 : lexLtB c.1.data b.1.data with
      | true => simp [h2, h3] at hbc
      | false =>
        have heq : b.1.data = c.1.data := lexEq_of_not_lt h2 h3
        rw [← heq]
        simp [h1]
  | false =>
    cases h2 : lexLtB b.1.data a.1.data with
    | true => simp [h1, h2] at hab
    | false =>
      have heq : a.1.data = b.1.data := lexEq_of_not_lt h1 h2
      simp only [h1, h2, Bool.false_eq_true, if_false] at hab
      cases h3 : lexLtB b.1.data c.1.data with
      | true => simp [heq ▸ h3]
      | false =>
        cases h4 : lexLtB c.1.data b.1.data with
        | true => simp [h3, h4] at hbc
        | false =>
          simp only [h3, h4, Bool.false_eq_true, if_false] at hbc
          have h5 : lexLtB a.1.data c.1.data = false := heq ▸ h3
          have h6 : lexLtB c.1.data a.1.data = false := heq ▸ h4
          simp [h5, h6, lexLeB_trans hab hbc]

instance : IsTrans (String × String) pairLe := ⟨fun _ _ _ => pairLe_trans⟩

theorem pairLe_antisymm : ∀ {a b : String × String}, pairLe a b → pairLe b a → a = b := by
  intro a b hab hba
  simp only [pairLe, pairLeB] at hab hba
  cases h1 : lexLtB a.1.data b.1.data with
  | true =>
    cases h2 : lexLtB b.1.data a.1.data with
    | true =>
      have := lexLtB_trans h1 h2
      rw [lexLtB_irrefl] at this
      exact absurd this (by simp)
    | false => simp [h1, h2] at hba
  | false =>
    cases h2 : lexLtB b.1.data a.1.data with
    | true => simp [h1, h2] at hab
    | false =>
      have hn : a.1.data = b.1.data := lexEq_of_not_lt h1 h2
      simp only [h1, h2, Bool.false_eq_true, if_false] at hab hba
      have hv : a.2.data = b.2.data := lexLeB_antisymm hab hba
      obtain ⟨a1, a2⟩ := a
      obtain ⟨b1, b2⟩ := b
      simp only at hn hv
      rw [strDataEq hn, strDataEq hv]

instance : IsAntisymm (String × String) pairLe := ⟨fun _ _ => pairLe_antisymm⟩

/-! ### Dictionary lemmas -/

theorem lookupD_dictSet_self {α : Type} (d : List (String × α)) (k : String) (v : α) :
    lookupD (dictSet d k v) k = some v := by
  induction d with
  | nil => simp [dictSet, lookupD]
  | cons e rest ih =>
    by_cases h : e.1 = k
    · simp [dictSet, h, lookupD]
    · simp [dictSet, h, lookupD, ih]

theorem lookupD_dictSet_ne {α : Type} (d : List (String × α)) {k key : String} (v : α)
    (h : key ≠ k) : lookupD (dictSet d k v) key = lookupD d key := by
  have hk : ¬ (k = key) := fun he => h he.symm
  induction d with
  | nil => simp [dictSet, lookupD, hk]
  | cons e rest ih =>
    obtain ⟨e1, e2⟩ := e
    by_cases he : e1 = k
    · subst he
      simp [dictSet, lookupD, hk]
    · simp [dictSet, he, lookupD, ih]

theorem hasKey_dictSet {α : Type} (d : List (String × α)) (k key : String) (v : α) :
    hasKey (dictSet d k v) key = (decide (k = key) || hasKey d key) := by
  induction d with
  | nil => simp [dictSet, hasKey]
  | cons e rest ih =>
    by_cases h : e.1 = k
    · by_cases hk : e.1 = key
      · simp [dictSet, h, hasKey, hk, h ▸ hk]
      · simp only [dictSet, if_pos h, hasKey, List.any_cons] at ih ⊢
        simp [hk, ← h]
    · simp only [dictSet, if_neg h, hasKey, List.any_cons] at ih ⊢
      by_cases hk : e.1 = key
      · simp [hk]
      · simp [hk, ih]

theorem hasKey_iff_mem_keys {α : Type} {d : List (String × α)} {k : String} :
    hasKey d k = true ↔ k ∈ d.map Prod.fst := by
  simp only [hasKey, List.any_eq_true, List.mem_map, decide_eq_true_eq]

theorem lookupD_some_mem_keys {α : Type} {d : List (String × α)} {k : String} {v : α}
    (h : lookupD d k = some v) : k ∈ d.map Prod.fst := by
  induction d with
  | nil => simp [lookupD] at h
  | cons e rest ih =>
    by_cases he : e.1 = k
    · simp [he ▸ List.mem_map_of_mem Prod.fst (List.mem_cons_self e rest), he]
    · simp only [lookupD, if_neg he] at h
      simp [ih h]

theorem mem_keys_lookupD_isSome {α : Type} {d : List (String × α)} {k : String}
    (h : k ∈ d.map Prod.fst) : ∃ v, lookupD d k = some v := by
  induction d with
  | nil => simp at h
  | cons e rest ih =>
    by_cases he : e.1 = k
    · exact ⟨e.2, by simp [lookupD, he]⟩
    · simp only [List.map_cons, List.mem_cons] at h
      rcases h with h | h
      · exact absurd h.symm he
      · simpa [lookupD, he] using ih h

theorem nodupKeys_snd_eq {α : Type} {d : List (String × α)} {k : String} {b c : α}
    (hnodup : (d.map Prod.fst).Nodup) (hb : (k, b) ∈ d) (hc : (k, c) ∈ d) : b = c := by
  induction d with
  | nil => simp at hb
  | cons e rest ih =>
    simp only [List.map_cons, List.nodup_cons] at hnodup
    rcases List.mem_cons.mp hb with hb1 | hb1 <;> rcases List.mem_cons.mp hc with hc1 | hc1
    · exact congrArg Prod.snd (hb1.trans hc1.symm)
    · have hke : k = e.1 := congrArg Prod.fst hb1
      have hmem : k ∈ rest.map Prod.fst := List.mem_map_of_mem Prod.fst hc1
      exact absurd (hke ▸ hmem) hnodup.1
    · have hke : k = e.1 := congrArg Prod.fst hc1
      have hmem : k ∈ rest.map Prod.fst := List.mem_map_of_mem Prod.fst hb1
      exact absurd (hke ▸ hmem) hnodup.1
    · exact ih hnodup.2 hb1 hc1

/-! ### Decomposition of the parse loop -/

theorem parseStep_eq (pfxS : String) (spec : SpecMap)
    (acc : List (String × String) × ParsedMap) (e : String × String) :
    parseStep pfxS spec acc e =
      (acc.1 ++ (malfEntry pfxS spec e).toList,
       match okEntry pfxS spec e with
       | some kv => dictSet acc.2 kv.1 kv.2
       | none => acc.2) := by
  by_cases hs : startsW pfxS e.1
  · cases hl : lookupD spec (dropPfx pfxS e.1) with
    | none => simp [parseStep, malfEntry, okEntry, hs, hl]
    | some tc =>
      cases hv : tc e.2 with
      | error ex => simp [parseStep, malfEntry, okEntry, hs, hl, hv]
      | ok v => simp [parseStep, malfEntry, okEntry, hs, hl, hv]
  · simp [parseStep, malfEntry, okEntry, hs]

theorem foldl_parseStep_fst (pfxS : String) (spec : SpecMap) :
    ∀ (l : List (String × String)) (m : List (String × String)) (p : ParsedMap),
      (l.foldl (parseStep pfxS spec) (m, p)).1 = m ++ l.filterMap (malfEntry pfxS spec)
  | [], m, p => by simp
  | e :: rest, m, p => by
      rw [List.foldl_cons, parseStep_eq, List.filterMap_cons]
      cases hm : malfEntry pfxS spec e with
      | none =>
        simp only [hm, Option.toList_none, List.append_nil]
        exact foldl_parseStep_fst pfxS spec rest m _
      | some a =>
        simp only [hm, Option.toList_some]
        rw [foldl_parseStep_fst pfxS spec rest (m ++ [a]) _, List.append_assoc]
        rfl

theorem foldl_parseStep_snd (pfxS : String) (spec : SpecMap) :
    ∀ (l : List (String × String)) (m : List (String × String)) (p : ParsedMap),
      (l.foldl (parseStep pfxS spec) (m, p)).2 = parsedFold pfxS spec l p
  | [], _, _ => by simp [parsedFold]
  | e :: rest, m, p => by
      rw [List.foldl_cons, parseStep_eq]
      cases ho : okEntry pfxS spec e with
      | none =>
        simp only [ho]
        rw [foldl_parseStep_snd pfxS spec rest _ _]
        simp [parsedFold, ho]
      | some kv =>
        simp only [ho]
        rw [foldl_parseStep_snd pfxS spec rest _ _]
        simp [parsedFold, ho]

theorem parse_malformed_eq (pfxS : String) (spec : SpecMap) (environ : EnvMap) :
    (parse pfxS spec environ).2.1 = (sortPairs environ).filterMap (malfEntry pfxS spec) := by
  simpa [parse] using foldl_parseStep_fst pfxS spec (sortPairs environ) [] []

theorem parse_parsed_eq (pfxS : String) (spec : SpecMap) (environ : EnvMap) :
    (parse pfxS spec environ).2.2 = parsedFold pfxS spec (sortPairs environ) [] := by
  simpa [parse] using foldl_parseStep_snd pfxS spec (sortPairs environ) [] []

theorem malfEntry_fst {pfxS : String} {spec : SpecMap} {e : String × String}
    {a : String × String} (h : malfEntry pfxS spec e = some a) : a.1 = e.1 := by
  by_cases hs : startsW pfxS e.1
  · cases hl : lookupD spec (dropPfx pfxS e.1) with
    | none => simp [malfEntry, hs, hl] at h
    | some tc =>
      cases hv : tc e.2 with
      | error ex =>
        simp only [malfEntry, if_pos hs, hl, hv] at h
        cases Option.some.inj h
        rfl
      | ok v => simp [malfEntry, hs, hl, hv] at h
  · simp [malfEntry, hs] at h

/-! ### Sorting transfer lemmas -/

theorem sortPairs_perm (l : List (String × String)) : (sortPairs l).Perm l :=
  List.perm_insertionSort pairLe l

theorem mem_sortPairs {l : List (String × String)} {e : String × String} :
    e ∈ sortPairs l ↔ e ∈ l :=
  (sortPairs_perm l).mem_iff

theorem sortPairs_sorted (l : List (String × String)) :
    List.Sorted pairLe (sortPairs l) :=
  List.sorted_insertionSort pairLe l

theorem sortPairs_filter (l : List (String × String)) (q : String × String → Bool) :
    sortPairs (l.filter q) = (sortPairs l).filter q := by
  refine List.eq_of_perm_of_sorted ?_ (sortPairs_sorted _) ((sortPairs_sorted l).filter q)
  exact (sortPairs_perm (l.filter q)).trans ((sortPairs_perm l).filter q).symm

theorem sortPairs_nodup_keys {l : List (String × String)}
    (h : (l.map Prod.fst).Nodup) : ((sortPairs l).map Prod.fst).Nodup :=
  (((sortPairs_perm l).map Prod.fst).nodup_iff).mpr h

theorem sortStrs_perm (l : List String) : (sortStrs l).Perm l :=
  List.perm_insertionSort strLe l

theorem mem_sortStrs {l : List String} {s : String} : s ∈ sortStrs l ↔ s ∈ l :=
  (sortStrs_perm l).mem_iff

theorem sortStrs_sorted (l : List String) : List.Sorted strLe (sortStrs l) :=
  List.sorted_insertionSort strLe l

theorem sortStrs_nodup {l : List String} (h : l.Nodup) : (sortStrs l).Nodup :=
  ((sortStrs_perm l).nodup_iff).mpr h

theorem perm_any {α : Type} {l1 l2 : List α} (h : l1.Perm l2) (f : α → Bool) :
    l1.any f = l2.any f := by
  cases h1 : l1.any f with
  | true =>
    rcases List.any_eq_true.mp h1 with ⟨x, hx, hfx⟩
    exact (List.any_eq_true.mpr ⟨x, h.mem_iff.mp hx, hfx⟩).symm
  | false =>
    cases h2 : l2.any f with
    | false => rfl
    | true =>
      rcases List.any_eq_true.mp h2 with ⟨x, hx, hfx⟩
      rw [List.any_eq_true.mpr ⟨x, h.mem_iff.mpr hx, hfx⟩] at h1
      exact h1.symm ▸ rfl

/-! ### Lemmas about the parsed accumulator -/

theorem hasKey_parsedFold (pfxS : String) (spec : SpecMap) (key : String) :
    ∀ (l : List (String × String)) (p : ParsedMap),
      hasKey (parsedFold pfxS spec l p) key =
        (hasKey p key || l.any (writesKeyB pfxS spec key))
  | [], p => by simp [parsedFold]
  | e :: rest, p => by
      cases ho : okEntry pfxS spec e with
      | none =>
        have hstep : parsedFold pfxS spec (e :: rest) p = parsedFold pfxS spec rest p := by
          simp [parsedFold, ho]
        rw [hstep, hasKey_parsedFold pfxS spec key rest p]
        simp [writesKeyB, ho]
      | some kv =>
        have hstep : parsedFold pfxS spec (e :: rest) p
            = parsedFold pfxS spec rest (dictSet p kv.1 kv.2) := by
          simp [parsedFold, ho]
        rw [hstep, hasKey_parsedFold pfxS spec key rest _, hasKey_dictSet]
        simp only [List.any_cons, writesKeyB, ho]
        cases hkk : decide (kv.1 = key) <;> simp [hkk, Bool.or_assoc]

theorem parsedFold_append (pfxS : String) (spec : SpecMap)
    (l1 l2 : List (String × String)) (p : ParsedMap) :
    parsedFold pfxS spec (l1 ++ l2) p = parsedFold pfxS spec l2 (parsedFold pfxS spec l1 p) :=
  List.foldl_append _ _ l1 l2

theorem lookupD_parsedFold_no_writer (pfxS : String) (spec : SpecMap) (key : String) :
    ∀ (l : List (String × String)) (p : ParsedMap),
      (∀ e ∈ l, writesKeyB pfxS spec key e = false) →
      lookupD (parsedFold pfxS spec l p) key = lookupD p key
  | [], p, _ => rfl
  | e :: rest, p, h => by
      cases ho : okEntry pfxS spec e with
      | none =>
        have hstep : parsedFold pfxS spec (e :: rest) p = parsedFold pfxS spec rest p := by
          simp [parsedFold, ho]
        rw [hstep]
        exact lookupD_parsedFold_no_writer pfxS spec key rest p
          (fun x hx => h x (List.mem_cons_of_mem e hx))
      | some kv =>
        have hstep : parsedFold pfxS spec (e :: rest) p
            = parsedFold pfxS spec rest (dictSet p kv.1 kv.2) := by
          simp [parsedFold, ho]
        have hne : key ≠ kv.1 := by
          have := h e (List.mem_cons_self e rest)
          simp only [writesKeyB, ho, decide_eq_false_iff_not] at this
          exact fun hk => this (hk.symm)
        rw [hstep, lookupD_parsedFold_no_writer pfxS spec key rest _
              (fun x hx => h x (List.mem_cons_of_mem e hx)),
            lookupD_dictSet_ne p kv.2 hne]

theorem parsedFold_filter_of_none (pfxS : String) (spec : SpecMap)
    (q : String × String → Bool) :
    ∀ (l : List (String × String)) (p : ParsedMap),
      (∀ e ∈ l, q e = false → okEntry pfxS spec e = none) →
      parsedFold pfxS spec (l.filter q) p = parsedFold pfxS spec l p
  | [], _, _ => rfl
  | e :: rest, p, h => by
      cases hq : q e with
      | true =>
        rw [List.filter_cons_of_pos hq]
        cases ho : okEntry pfxS spec e with
        | none =>
          simp only [parsedFold, List.foldl_cons, ho]
          exact parsedFold_filter_of_none pfxS spec q rest p
            (fun x hx => h x (List.mem_cons_of_mem e hx))
        | some kv =>
          simp only [parsedFold, List.foldl_cons, ho]
          exact parsedFold_filter_of_none pfxS spec q rest _
            (fun x hx => h x (List.mem_cons_of_mem e hx))
      | false =>
        rw [List.filter_cons_of_neg (by simp [hq])]
        have ho := h e (List.mem_cons_self e rest) hq
        simp only [parsedFold, List.foldl_cons, ho]
        exact parsedFold_filter_of_none pfxS spec q rest p
          (fun x hx => h x (List.mem_cons_of_mem e hx))

theorem filterMap_filter_of_none {α β : Type} (f : α → Option β) (q : α → Bool) :
    ∀ l : List α, (∀ e ∈ l, q e = false → f e = none) →
      (l.filter q).filterMap f = l.filterMap f
  | [], _ => rfl
  | e :: rest, h => by
      cases hq : q e with
      | true =>
        rw [List.filter_cons_of_pos hq, List.filterMap_cons, List.filterMap_cons]
        cases hf : f e with
        | none =>
          simp only
          exact filterMap_filter_of_none f q rest (fun x hx => h x (List.mem_cons_of_mem e hx))
        | some b =>
          simp only
          rw [filterMap_filter_of_none f q rest (fun x hx => h x (List.mem_cons_of_mem e hx))]
      | false =>
        rw [List.filter_cons_of_neg (by simp [hq]), List.filterMap_cons,
            h e (List.mem_cons_self e rest) hq]
        exact filterMap_filter_of_none f q rest (fun x hx => h x (List.mem_cons_of_mem e hx))

/-! ### Prefix handling lemmas -/

theorem startsW_empty (s : String) : startsW "" s = true := rfl

theorem dropPfx_empty (s : String) : dropPfx "" s = s := by
  cases s
  rfl

theorem strStarts_self_append : ∀ p k : List Char, strStarts p (p ++ k) = true
  | [], _ => rfl
  | a :: ps, k => by simp [strStarts, strStarts_self_append ps k]

theorem startsW_append (p k : String) : startsW p (p ++ k) = true := by
  rw [startsW, String.data_append]
  exact strStarts_self_append p.data k.data

theorem dropPfx_append (p k : String) : dropPfx p (p ++ k) = k := by
  rw [dropPfx, String.data_append, List.drop_left]

/-! ### Characterization of the missing list -/

theorem missing_mem_iff {spec : SpecMap} {environ : EnvMap} {k : String} :
    k ∈ (parse "" spec environ).1 ↔ k ∈ specKeys spec ∧ hasKey environ k = false := by
  show k ∈ missingOf spec environ ↔ _
  rw [missingOf, mem_sortStrs, List.mem_filter]
  simp

theorem missing_mem_iff_any_pfx (pfxS : String) {spec : SpecMap} {environ : EnvMap}
    {k : String} :
    k ∈ (parse pfxS spec environ).1 ↔ k ∈ specKeys spec ∧ hasKey environ k = false := by
  show k ∈ missingOf spec environ ↔ _
  rw [missingOf, mem_sortStrs, List.mem_filter]
  simp

theorem missing_sorted (pfxS : String) (spec : SpecMap) (environ : EnvMap) :
    List.Sorted strLe (parse pfxS spec environ).1 :=
  sortStrs_sorted _

theorem missing_nodup (pfxS : String) (spec : SpecMap) (environ : EnvMap) :
    (parse pfxS spec environ).1.Nodup :=
  sortStrs_nodup (List.Nodup.filter _ (List.nodup_dedup _))

/-! ### Characterizations of the per-item contributions -/

theorem writesKeyB_iff {pfxS : String} {spec : SpecMap} {key : String}
    {e : String × String} :
    writesKeyB pfxS spec key e = true ↔
      ∃ kv, okEntry pfxS spec e = some kv ∧ kv.1 = key := by
  cases ho : okEntry pfxS spec e with
  | none => simp [writesKeyB, ho]
  | some kv => simp [writesKeyB, ho]

theorem okEntry_some_iff {pfxS : String} {spec : SpecMap} {e : String × String}
    {kv : String × Value} :
    okEntry pfxS spec e = some kv ↔
      startsW pfxS e.1 = true ∧
        ∃ tc v, lookupD spec (dropPfx pfxS e.1) = some tc ∧ tc e.2 = Except.ok v ∧
          kv = (pyLower (dropPfx pfxS e.1), v) := by
  cases hst : startsW pfxS e.1 with
  | false => simp [okEntry, hst]
  | true =>
    cases hl : lookupD spec (dropPfx pfxS e.1) with
    | none => simp [okEntry, hst, hl]
    | some tc =>
      cases hv : tc e.2 with
      | error ex => simp [okEntry, hst, hl, hv]
      | ok v =>
        rw [show okEntry pfxS spec e = some (pyLower (dropPfx pfxS e.1), v) from by
              simp [okEntry, hst, hl, hv]]
        constructor
        · intro h
          exact ⟨rfl, tc, v, rfl, hv, (Option.some.inj h).symm⟩
        · rintro ⟨-, tc2, v2, htc2, hv2, hkv⟩
          have h1 : tc2 = tc := (Option.some.inj htc2).symm
          subst h1
          have h2 : v = v2 := Except.ok.inj (hv.symm.trans hv2)
          subst h2
          exact congrArg some hkv.symm

theorem malfEntry_some_iff {pfxS : String} {spec : SpecMap} {e : String × String}
    {a : String × String} :
    malfEntry pfxS spec e = some a ↔
      startsW pfxS e.1 = true ∧
        ∃ tc ex, lookupD spec (dropPfx pfxS e.1) = some tc ∧ tc e.2 = Except.error ex ∧
          a = (e.1, fmtExc ex) := by
  cases hst : startsW pfxS e.1 with
  | false => simp [malfEntry, hst]
  | true =>
    cases hl : lookupD spec (dropPfx pfxS e.1) with
    | none => simp [malfEntry, hst, hl]
    | some tc =>
      cases hv : tc e.2 with
      | ok v => simp [malfEntry, hst, hl, hv]
      | error ex =>
        rw [show malfEntry pfxS spec e = some (e.1, fmtExc ex) from by
              simp [malfEntry, hst, hl, hv]]
        constructor
        · intro h
          exact ⟨rfl, tc, ex, rfl, hv, (Option.some.inj h).symm⟩
        · rintro ⟨-, tc2, ex2, htc2, hv2, ha⟩
          have h1 : tc2 = tc := (Option.some.inj htc2).symm
          subst h1
          have h2 : ex = ex2 := Except.error.inj (hv.symm.trans hv2)
          subst h2
          exact congrArg some ha.symm

theorem pairLe_name_le {e f : String × String} (h : pairLe e f) :
    lexLeB e.1.data f.1.data = true := by
  simp only [pairLe, pairLeB] at h
  cases h1 : lexLtB e.1.data f.1.data with
  | true => exact lexLtB_le h1
  | false =>
    cases h2 : lexLtB f.1.data e.1.data with
    | true => simp [h1, h2] at h
    | false => exact (lexEq_of_not_lt h1 h2) ▸ lexLeB_refl _

theorem nodupKeys_no_tail_dup {α : Type} {l1 l2 : List (String × α)} {e : String × α}
    (h : ((l1 ++ e :: l2).map Prod.fst).Nodup) : ∀ x ∈ l2, x.1 ≠ e.1 := by
  have hsub : ((e :: l2).map Prod.fst).Nodup :=
    ((List.sublist_append_right l1 (e :: l2)).map Prod.fst).nodup h
  rw [List.map_cons, List.nodup_cons] at hsub
  intro x hx hxe
  exact hsub.1 (hxe ▸ List.mem_map_of_mem Prod.fst hx)

/-- Membership in the malformed output, phrased over the unsorted environ. -/
theorem malformed_mem_iff {pfxS : String} {spec : SpecMap} {environ : EnvMap}
    {a : String × String} :
    a ∈ (parse pfxS spec environ).2.1 ↔
      ∃ e ∈ environ, malfEntry pfxS spec e = some a := by
  rw [parse_malformed_eq, List.mem_filterMap]
  constructor
  · rintro ⟨e, he, hme⟩
    exact ⟨e, mem_sortPairs.mp he, hme⟩
  · rintro ⟨e, he, hme⟩
    exact ⟨e, mem_sortPairs.mpr he, hme⟩

/-- Key membership in the parsed output, phrased over the unsorted environ. -/
theorem parsed_hasKey_iff {pfxS : String} {spec : SpecMap} {environ : EnvMap}
    {key : String} :
    hasKey (parse pfxS spec environ).2.2 key = true ↔
      ∃ e ∈ environ, writesKeyB pfxS spec key e = true := by
  rw [parse_parsed_eq, hasKey_parsedFold]
  show (false || _) = true ↔ _
  rw [Bool.false_or, perm_any (sortPairs_perm environ), List.any_eq_true]

/-! ### Claim theorems -/

/-- Claim C8: `is_yesish(s)` returns true if and only if the lowercased form
of `s` is exactly `"1"`, `"true"`, or `"yes"`, and returns false for every
other string. -/
theorem is_yesish_characterization (s : String) :
    is_yesish s = true ↔ (pyLower s = "1" ∨ pyLower s = "true" ∨ pyLower s = "yes") := by
  simp [is_yesish, List.contains]

/-- Claim C2, counterexample: with prefix `"FOO_"`, spec `{BAR: str}` and
environ `{FOO_BAR: "42"}`, the prefixed entry `FOO_BAR` is present, yet
`parse` still reports `BAR` missing: the source computes
`set(spec) - set(environ)` on the raw names, never applying the prefix, so
the claimed formula (prefix+key not a key of the environment) disagrees. -/
theorem missing_pfx_counterexample :
    hasKey [("FOO_BAR", "42")] ("FOO_" ++ "BAR") = true ∧
    (parse "FOO_" [("BAR", strCaster)] [("FOO_BAR", "42")]).1 = ["BAR"] ∧
    missingSpecSide "FOO_" [("BAR", strCaster)] [("FOO_BAR", "42")] = [] ∧
    (parse "FOO_" [("BAR", strCaster)] [("FOO_BAR", "42")]).1 ≠
      missingSpecSide "FOO_" [("BAR", strCaster)] [("FOO_BAR", "42")] := by
  refine ⟨by decide, by decide, by decide, ?_⟩
  intro h
  rw [show (parse "FOO_" [("BAR", strCaster)] [("FOO_BAR", "42")]).1 = ["BAR"] from by decide,
      show missingSpecSide "FOO_" [("BAR", strCaster)] [("FOO_BAR", "42")] = [] from by decide]
      at h
  cases h

/-- Claim C2 (amended): the missing list returned by `parse` is exactly the
ascending-sorted duplicate-free list of specification keys `k` such that `k`
itself — not `prefix + k` — is not a key of the environment snapshot. -/
theorem missing_characterization (pfxS : String) (spec : SpecMap) (environ : EnvMap) :
    List.Sorted strLe (parse pfxS spec environ).1 ∧
    (parse pfxS spec environ).1.Nodup ∧
    ∀ k, (k ∈ (parse pfxS spec environ).1 ↔
            k ∈ specKeys spec ∧ hasKey environ k = false) :=
  ⟨missing_sorted pfxS spec environ, missing_nodup pfxS spec environ,
   fun _ => missing_mem_iff_any_pfx pfxS⟩

/-- Claim C4, counterexample: `__init__` executes `spec.update(kw)` on the
caller-supplied spec dict, so passing `spec={'A': str}` together with the
keyword argument `B=str` leaves the caller's dict with two entries: the
caller-supplied specification mapping is mutated. -/
theorem initEnv_spec_mutation_counterexample :
    ((initEnv "" (some [("A", strCaster)]) [] [("B", strCaster)]).callerSpecAfter.map
        List.length) = some 2 ∧
    (initEnv "" (some [("A", strCaster)]) [] [("B", strCaster)]).callerSpecAfter ≠
      some [("A", strCaster)] := by
  refine ⟨rfl, fun h => ?_⟩
  have hlen := congrArg (Option.map List.length) h
  rw [show ((initEnv "" (some [("A", strCaster)]) [] [("B", strCaster)]).callerSpecAfter.map
        List.length) = some 2 from rfl] at hlen
  cases Option.some.inj hlen

/-- Claim C4 (amended): construction reads but never writes the
caller-supplied environment mapping (it operates on a copy taken at
construction, so later mutation of the caller's environ cannot change the
already-computed missing/malformed/parsed, which are a pure function of the
snapshot); the caller-supplied specification mapping, however, is mutated in
place by `spec.update(kw)`, i.e. the caller observes `dictUpdate spec kw`,
which changes the dict exactly when keyword arguments are supplied. -/
theorem initEnv_mutation_frame (pfxS : String) (specArg : Option SpecMap)
    (environArg : EnvMap) (kw : SpecMap) :
    (initEnv pfxS specArg environArg kw).callerEnvironAfter = environArg ∧
    (initEnv pfxS specArg environArg kw).env.environ = environArg ∧
    ((initEnv pfxS specArg environArg kw).env.missing,
     (initEnv pfxS specArg environArg kw).env.malformed,
     (initEnv pfxS specArg environArg kw).env.parsed) =
      parse pfxS (initEnv pfxS specArg environArg kw).env.spec environArg ∧
    (initEnv pfxS specArg environArg kw).callerSpecAfter =
      specArg.map (fun s => dictUpdate s kw) ∧
    (initEnv pfxS specArg environArg []).callerSpecAfter = specArg := by
  refine ⟨rfl, rfl, rfl, rfl, ?_⟩
  cases specArg <;> rfl

/-- Claim C6: `parse` is deterministic in the iteration order of the
environment mapping: permuting the environment items changes none of the
three outputs (and parsing the same input twice trivially yields the same
output, the identity permutation case). -/
theorem parse_order_deterministic (pfxS : String) (spec : SpecMap)
    (env1 env2 : EnvMap) (hperm : env1.Perm env2) :
    parse pfxS spec env1 = parse pfxS spec env2 := by
  have hsort : sortPairs env1 = sortPairs env2 :=
    List.eq_of_perm_of_sorted
      ((sortPairs_perm env1).trans (hperm.trans (sortPairs_perm env2).symm))
      (sortPairs_sorted env1) (sortPairs_sorted env2)
  have hmiss : missingOf spec env1 = missingOf spec env2 := by
    unfold missingOf
    congr 1
    apply List.filter_congr
    intro x _
    rw [show hasKey env1 x = hasKey env2 x from perm_any hperm _]
  show (missingOf spec env1, _) = (missingOf spec env2, _)
  rw [hmiss, hsort]

/-- Witness for claim C6 at a concrete permutation. -/
theorem parse_order_deterministic_witness :
    ([("B", "2"), ("A", "1")] : EnvMap).Perm [("A", "1"), ("B", "2")] ∧
    parse "" [("A", strCaster), ("B", strCaster)] [("B", "2"), ("A", "1")] =
      parse "" [("A", strCaster), ("B", strCaster)] [("A", "1"), ("B", "2")] :=
  ⟨by decide,
   parse_order_deterministic "" [("A", strCaster), ("B", strCaster)]
     [("B", "2"), ("A", "1")] [("A", "1"), ("B", "2")] (by decide)⟩

/-- Claim C9, counterexample: (a) the six instance attributes set by
`__init__` shadow the parsed mapping during attribute lookup (instance
`__dict__` is consulted first, `__getattr__` only after everything else
fails), so with a parsed entry named `prefix` the access `env.prefix` returns
the prefix attribute `''`, not the parsed value `'and'` — this is the
repository's own test scenario
`test_Environment_can_work_with_envvars_named_prefix_and_environ`; (b) class
attributes are consulted before `__getattr__`, so `env.parse` — a name that
is neither a fixed diagnostic field nor a key of the parsed mapping — returns
the `parse` static method and never signals "no such attribute", falsifying
the claim's first half as well. -/
theorem getattr_shadow_counterexample :
    lookupD (initEnv "" (some [("prefix", strCaster), ("environ", strCaster)])
        [("prefix", "and"), ("environ", "how")] []).env.parsed "prefix" =
      some (Value.vstr "and") ∧
    pyGetattr (initEnv "" (some [("prefix", strCaster), ("environ", strCaster)])
        [("prefix", "and"), ("environ", "how")] []).env "prefix" =
      AttrValue.ofStr "" ∧
    pyGetattr (initEnv "" (some [("prefix", strCaster), ("environ", strCaster)])
        [("prefix", "and"), ("environ", "how")] []).env "prefix" ≠
      AttrValue.ofValue (Value.vstr "and") ∧
    lookupD (initEnv "" (some [("prefix", strCaster), ("environ", strCaster)])
        [("prefix", "and"), ("environ", "how")] []).env.parsed "parse" = none ∧
    "parse" ∉ fixedAttrNames ∧
    pyGetattr (initEnv "" (some [("prefix", strCaster), ("environ", strCaster)])
        [("prefix", "and"), ("environ", "how")] []).env "parse" =
      AttrValue.ofClassAttr "parse" ∧
    pyGetattr (initEnv "" (some [("prefix", strCaster), ("environ", strCaster)])
        [("prefix", "and"), ("environ", "how")] []).env "parse" ≠
      AttrValue.attrError "'Environment' object has no attribute 'parse'" :=
  ⟨rfl, rfl,
   fun h => AttrValue.noConfusion
     (show AttrValue.ofStr "" = AttrValue.ofValue (Value.vstr "and") from h),
   rfl, by decide, rfl,
   fun h => AttrValue.noConfusion
     (show AttrValue.ofClassAttr "parse" =
        AttrValue.attrError "'Environment' object has no attribute 'parse'" from h)⟩

/-- Claim C9 (amended): for every attribute name that is resolved neither on
the instance (the six fixed attributes set by `__init__`) nor on the class
(the `parse` static method, the methods of the class body, and the attributes
inherited from `object`), access returns the parsed value when the name is a
key of the parsed mapping, and otherwise signals `AttributeError` naming the
requested attribute; a name found on the instance or the class is served by
normal lookup and never reaches the parsed mapping, even when the parsed
mapping has an entry of that name. -/
theorem getattr_lookup_behavior (E : Environment) (name : String)
    (hfix : name ∉ fixedAttrNames)
    (hcls : name ∉ classAttrNames)
    (hobj : name ∉ objectAttrNames) :
    (lookupD E.parsed name = none →
      pyGetattr E name =
        AttrValue.attrError ("'Environment' object has no attribute '" ++ name ++ "'")) ∧
    ∀ v, lookupD E.parsed name = some v → pyGetattr E name = AttrValue.ofValue v := by
  simp only [fixedAttrNames, List.mem_cons, List.not_mem_nil, or_false, not_or] at hfix
  obtain ⟨h1, h2, h3, h4, h5, h6⟩ := hfix
  have hc : ¬ (name ∈ classAttrNames ∨ name ∈ objectAttrNames) := by
    rintro (hx | hx)
    · exact hcls hx
    · exact hobj hx
  constructor
  · intro h
    simp [pyGetattr, h1, h2, h3, h4, h5, h6, hc, h]
  · intro v h
    simp [pyGetattr, h1, h2, h3, h4, h5, h6, hc, h]

/-- Witness for claim C9: on the tutorial example, `env.blah` raises
`AttributeError` while `env.foo` is served from the parsed mapping. -/
theorem getattr_lookup_behavior_witness :
    ("blah" ∉ fixedAttrNames ∧ "blah" ∉ classAttrNames ∧ "blah" ∉ objectAttrNames) ∧
    pyGetattr (initEnv "" (some [("FOO", strCaster)]) [("FOO", "42")] []).env "blah" =
      AttrValue.attrError "'Environment' object has no attribute 'blah'" ∧
    pyGetattr (initEnv "" (some [("FOO", strCaster)]) [("FOO", "42")] []).env "foo" =
      AttrValue.ofValue (Value.vstr "42") :=
  ⟨⟨by decide, by decide, by decide⟩,
   (getattr_lookup_behavior (initEnv "" (some [("FOO", strCaster)]) [("FOO", "42")] []).env
      "blah" (by decide) (by decide) (by decide)).1 rfl,
   (getattr_lookup_behavior (initEnv "" (some [("FOO", strCaster)]) [("FOO", "42")] []).env
      "foo" (by decide) (by decide) (by decide)).2 (Value.vstr "42") rfl⟩

/-- Claim C5: when the typecaster for spec key `k` fails on the value of the
prefixed entry, `parse` records `(prefixed-name, "<exception-name>: <message>")`
in the malformed list, stores nothing in parsed for this entry, and still
parses everything else: the parsed mapping is exactly what it would be had
the failing entry not been in the environment at all. -/
theorem malformed_isolation (pfxS k v : String) (spec : SpecMap) (environ : EnvMap)
    (tc : Typecaster) (ex : PyExc)
    (hnodup : (environ.map Prod.fst).Nodup)
    (hmem : (pfxS ++ k, v) ∈ environ)
    (hspec : lookupD spec k = some tc)
    (hfail : tc v = Except.error ex) :
    (pfxS ++ k, fmtExc ex) ∈ (parse pfxS spec environ).2.1 ∧
    (parse pfxS spec environ).2.2 =
      (parse pfxS spec (environ.filter (fun e => !(decide (e.1 = pfxS ++ k))))).2.2 := by
  constructor
  · apply malformed_mem_iff.mpr
    refine ⟨(pfxS ++ k, v), hmem, malfEntry_some_iff.mpr ⟨startsW_append pfxS k, tc, ex, ?_, ?_, ?_⟩⟩
    · rw [show dropPfx pfxS (pfxS ++ k, v).1 = k from dropPfx_append pfxS k]
      exact hspec
    · exact hfail
    · rfl
  · rw [parse_parsed_eq, parse_parsed_eq, sortPairs_filter]
    refine (parsedFold_filter_of_none pfxS spec _ (sortPairs environ) [] ?_).symm
    intro e he hq
    obtain ⟨e1, e2⟩ := e
    have he1 : e1 = pfxS ++ k := by
      by_contra hc
      simp [hc] at hq
    subst he1
    have he2 : e2 = v :=
      nodupKeys_snd_eq hnodup (mem_sortPairs.mp he) hmem
    subst he2
    simp [okEntry, startsW_append, dropPfx_append, hspec, hfail]

/-- Witness for claim C5: `P_FOO` fails to cast to int while `P_OK` still
parses; removing the failing entry leaves parsed unchanged. -/
theorem malformed_isolation_witness :
    (("P_" ++ "FOO", "bad") ∈ ([("P_FOO", "bad"), ("P_OK", "fine")] : EnvMap)) ∧
    ("P_" ++ "FOO", "ValueError: invalid literal for int() with base 10: 'bad'") ∈
      (parse "P_" [("FOO", valueErrorCaster), ("OK", strCaster)]
        [("P_FOO", "bad"), ("P_OK", "fine")]).2.1 ∧
    (parse "P_" [("FOO", valueErrorCaster), ("OK", strCaster)]
        [("P_FOO", "bad"), ("P_OK", "fine")]).2.2 =
      (parse "P_" [("FOO", valueErrorCaster), ("OK", strCaster)]
        (([("P_FOO", "bad"), ("P_OK", "fine")] : EnvMap).filter
          (fun e => !(decide (e.1 = "P_" ++ "FOO"))))).2.2 := by
  have h := malformed_isolation "P_" "FOO" "bad"
    [("FOO", valueErrorCaster), ("OK", strCaster)] [("P_FOO", "bad"), ("P_OK", "fine")]
    valueErrorCaster ⟨"ValueError", "invalid literal for int() with base 10: 'bad'"⟩
    (by decide) (by decide) rfl rfl
  exact ⟨by decide, h.1, h.2⟩

/-- Claim C7: an environment entry whose name fails the prefix test, or whose
prefix-stripped name is not in the spec, never shows up in any output:
removing it changes neither the malformed list nor the parsed mapping, its
name is never an element of the missing list, and no malformed pair carries
its name. -/
theorem unmatched_entry_ignored (pfxS n v : String) (spec : SpecMap) (environ : EnvMap)
    (hmem : (n, v) ∈ environ)
    (hskip : startsW pfxS n = false ∨ lookupD spec (dropPfx pfxS n) = none) :
    (parse pfxS spec environ).2.2 =
      (parse pfxS spec (environ.filter (fun e => !(decide (e.1 = n))))).2.2 ∧
    (parse pfxS spec environ).2.1 =
      (parse pfxS spec (environ.filter (fun e => !(decide (e.1 = n))))).2.1 ∧
    n ∉ (parse pfxS spec environ).1 ∧
    ∀ m, (n, m) ∉ (parse pfxS spec environ).2.1 := by
  have hnone : ∀ e : String × String, e.1 = n →
      okEntry pfxS spec e = none ∧ malfEntry pfxS spec e = none := by
    intro e he
    rcases hskip with hs | hl
    · exact ⟨by simp [okEntry, he, hs], by simp [malfEntry, he, hs]⟩
    · cases hst : startsW pfxS n with
      | false => exact ⟨by simp [okEntry, he, hst], by simp [malfEntry, he, hst]⟩
      | true => exact ⟨by simp [okEntry, he, hst, hl], by simp [malfEntry, he, hst, hl]⟩
  have hname : ∀ e ∈ sortPairs environ, (!(decide (e.1 = n))) = false → e.1 = n := by
    intro e _ hq
    by_contra hc
    simp [hc] at hq
  refine ⟨?_, ?_, ?_, ?_⟩
  · rw [parse_parsed_eq, parse_parsed_eq, sortPairs_filter]
    exact (parsedFold_filter_of_none pfxS spec _ (sortPairs environ) []
      (fun e he hq => (hnone e (hname e he hq)).1)).symm
  · rw [parse_malformed_eq, parse_malformed_eq, sortPairs_filter]
    exact (filterMap_filter_of_none _ _ (sortPairs environ)
      (fun e he hq => (hnone e (hname e he hq)).2)).symm
  · intro hmm
    have := ((missing_mem_iff_any_pfx pfxS).mp hmm).2
    rw [show hasKey environ n = true from
          List.any_eq_true.mpr ⟨(n, v), hmem, by simp⟩] at this
    cases this
  · intro m hm
    obtain ⟨e, _, hsome⟩ := malformed_mem_iff.mp hm
    have he : e.1 = n := (malfEntry_fst hsome).symm
    rw [(hnone e he).2] at hsome
    cases hsome

/-- Witness for claim C7: entry `X` (prefix does not match) and entry `P_Z`
(stripped name `Z` not in spec) contribute to no output. -/
theorem unmatched_entry_ignored_witness :
    (("X", "v") ∈ ([("X", "v"), ("P_Y", "w")] : EnvMap)) ∧
    startsW "P_" "X" = false ∧
    ((parse "P_" [("X", strCaster), ("Y", strCaster)] [("X", "v"), ("P_Y", "w")]).2.2 =
      (parse "P_" [("X", strCaster), ("Y", strCaster)]
        (([("X", "v"), ("P_Y", "w")] : EnvMap).filter
          (fun e => !(decide (e.1 = "X"))))).2.2 ∧
     (parse "P_" [("X", strCaster), ("Y", strCaster)] [("X", "v"), ("P_Y", "w")]).2.1 =
      (parse "P_" [("X", strCaster), ("Y", strCaster)]
        (([("X", "v"), ("P_Y", "w")] : EnvMap).filter
          (fun e => !(decide (e.1 = "X"))))).2.1 ∧
     "X" ∉ (parse "P_" [("X", strCaster), ("Y", strCaster)] [("X", "v"), ("P_Y", "w")]).1 ∧
     ∀ m, ("X", m) ∉
        (parse "P_" [("X", strCaster), ("Y", strCaster)] [("X", "v"), ("P_Y", "w")]).2.1) :=
  ⟨by decide, by decide,
   unmatched_entry_ignored "P_" "X" "v" [("X", strCaster), ("Y", strCaster)]
     [("X", "v"), ("P_Y", "w")] (by decide) (Or.inl (by decide))⟩

/-- Last-write characterization: if an environment entry writes `kv` into the
parsed dict and every entry strictly after it in sorted order writes a
different parsed key, then the final parsed dict maps `kv.1` to `kv.2`. -/
theorem lookupD_parse_last_writer (pfxS : String) (spec : SpecMap) (environ : EnvMap)
    {n v : String} {kv : String × Value}
    (hnodup : (environ.map Prod.fst).Nodup)
    (hmem : (n, v) ∈ environ)
    (hok : okEntry pfxS spec (n, v) = some kv)
    (hafter : ∀ e ∈ environ, e.1 ≠ n → pairLe (n, v) e →
        writesKeyB pfxS spec kv.1 e = false) :
    lookupD (parse pfxS spec environ).2.2 kv.1 = some kv.2 := by
  obtain ⟨l1, l2, hsplit⟩ := List.append_of_mem (mem_sortPairs.mpr hmem)
  have hnw : ∀ e ∈ l2, writesKeyB pfxS spec kv.1 e = false := by
    intro e hel2
    have hmem2 : e ∈ environ :=
      mem_sortPairs.mp (hsplit ▸ List.mem_append_right l1 (List.mem_cons_of_mem _ hel2))
    have hnodup2 : ((l1 ++ (n, v) :: l2).map Prod.fst).Nodup := by
      rw [← hsplit]
      exact sortPairs_nodup_keys hnodup
    have hne : e.1 ≠ n := nodupKeys_no_tail_dup hnodup2 e hel2
    have hle : pairLe (n, v) e := by
      have hs := sortPairs_sorted environ
      rw [hsplit] at hs
      have hs2 : List.Sorted pairLe ((n, v) :: l2) :=
        hs.sublist (List.sublist_append_right l1 _)
      exact (List.sorted_cons.mp hs2).1 e hel2
    exact hafter e hmem2 hne hle
  rw [parse_parsed_eq, hsplit, parsedFold_append,
      show parsedFold pfxS spec ((n, v) :: l2) (parsedFold pfxS spec l1 []) =
        parsedFold pfxS spec l2
          (dictSet (parsedFold pfxS spec l1 []) kv.1 kv.2) from by
        simp [parsedFold, hok],
      lookupD_parsedFold_no_writer pfxS spec kv.1 l2 _ hnw,
      lookupD_dictSet_self]

/-- Claim C3, counterexample: spec key `A_B_C` (typecast succeeding) is
stored as the single flat key `a_b_c`; the parsed mapping has no entry `a`,
so the value is not stored under a two-level path `a -> b_c`: the source
performs no namespace splitting at all. -/
theorem namespace_split_counterexample :
    (parse "" [("A_B_C", strCaster)] [("A_B_C", "v")]).2.2 =
      [("a_b_c", Value.vstr "v")] ∧
    lookupD (parse "" [("A_B_C", strCaster)] [("A_B_C", "v")]).2.2 "a" = none ∧
    lookupD (parse "" [("A_B_C", strCaster)] [("A_B_C", "v")]).2.2 "a_b_c" =
      some (Value.vstr "v") := by
  refine ⟨by decide, by decide, by decide⟩

/-- Claim C3 (amended): a successfully typecast spec key is stored under the
single flat key obtained by lowercasing the whole unprefixed name, with no
namespace splitting: `A_B_C` is stored at the flat key `a_b_c`. -/
theorem parse_stores_flat_key (pfxS k v : String) (spec : SpecMap) (environ : EnvMap)
    (tc : Typecaster) (val : Value)
    (hnodup : (environ.map Prod.fst).Nodup)
    (hmem : (pfxS ++ k, v) ∈ environ)
    (hspec : lookupD spec k = some tc)
    (hok : tc v = Except.ok val)
    (hnowriter : ∀ e ∈ environ, e.1 ≠ pfxS ++ k →
        writesKeyB pfxS spec (pyLower k) e = false) :
    lookupD (parse pfxS spec environ).2.2 (pyLower k) = some val := by
  have hoke : okEntry pfxS spec (pfxS ++ k, v) = some (pyLower k, val) := by
    simp [okEntry, startsW_append, dropPfx_append, hspec, hok]
  exact lookupD_parse_last_writer pfxS spec environ hnodup hmem hoke
    (fun e he hne _ => hnowriter e he hne)

/-- Witness for claim C3 (amended) at the concrete key `A_B_C`. -/
theorem parse_stores_flat_key_witness :
    (("" ++ "A_B_C", "v") ∈ ([("A_B_C", "v")] : EnvMap)) ∧
    lookupD (parse "" [("A_B_C", strCaster)] [("A_B_C", "v")]).2.2 (pyLower "A_B_C") =
      some (Value.vstr "v") :=
  ⟨by decide,
   parse_stores_flat_key "" "A_B_C" "v" [("A_B_C", strCaster)] [("A_B_C", "v")]
     strCaster (Value.vstr "v") (by decide) (by decide) rfl rfl (by decide)⟩

theorem mem_keys_dictSet {α : Type} {d : List (String × α)} {k x : String} {v : α} :
    x ∈ (dictSet d k v).map Prod.fst ↔ k = x ∨ x ∈ d.map Prod.fst := by
  rw [← hasKey_iff_mem_keys, ← hasKey_iff_mem_keys, hasKey_dictSet]
  simp

theorem dictSet_nodup_keys {α : Type} {d : List (String × α)} (k : String) (v : α)
    (h : (d.map Prod.fst).Nodup) : ((dictSet d k v).map Prod.fst).Nodup := by
  induction d with
  | nil => simp [dictSet]
  | cons e rest ih =>
    rw [List.map_cons, List.nodup_cons] at h
    by_cases he : e.1 = k
    · rw [show dictSet (e :: rest) k v = (k, v) :: rest from by simp [dictSet, he],
          List.map_cons, List.nodup_cons]
      exact ⟨he ▸ h.1, h.2⟩
    · rw [show dictSet (e :: rest) k v = e :: dictSet rest k v from by simp [dictSet, he],
          List.map_cons, List.nodup_cons]
      refine ⟨fun hx => ?_, ih h.2⟩
      rcases mem_keys_dictSet.mp hx with h1 | h1
      · exact he h1.symm
      · exact h.1 h1

theorem parsedFold_nodup_keys (pfxS : String) (spec : SpecMap) :
    ∀ (l : List (String × String)) (p : ParsedMap),
      (p.map Prod.fst).Nodup → ((parsedFold pfxS spec l p).map Prod.fst).Nodup
  | [], _, h => h
  | e :: rest, p, h => by
      cases ho : okEntry pfxS spec e with
      | none =>
        rw [show parsedFold pfxS spec (e :: rest) p = parsedFold pfxS spec rest p from by
              simp [parsedFold, ho]]
        exact parsedFold_nodup_keys pfxS spec rest p h
      | some kv =>
        rw [show parsedFold pfxS spec (e :: rest) p
              = parsedFold pfxS spec rest (dictSet p kv.1 kv.2) from by
              simp [parsedFold, ho]]
        exact parsedFold_nodup_keys pfxS spec rest _ (dictSet_nodup_keys kv.1 kv.2 h)

/-- The parsed output of `parse` always has duplicate-free keys. -/
theorem parse_parsed_nodup_keys (pfxS : String) (spec : SpecMap) (environ : EnvMap) :
    ((parse pfxS spec environ).2.2.map Prod.fst).Nodup := by
  rw [parse_parsed_eq]
  exact parsedFold_nodup_keys pfxS spec (sortPairs environ) [] (by simp)

/-- Claim C10: when two distinct spec keys with the same lowercased name are
both present (prefixed) in the environment, both typecast successfully, and
no other entry writes that lowercased key, the parsed mapping holds a single
entry for that key (parsed keys are duplicate-free) whose value comes from
the entry whose full name sorts later in ascending order: the last write of
the sorted iteration wins. -/
theorem lower_collision_last_write (pfxS k1 k2 v1 v2 : String) (spec : SpecMap)
    (environ : EnvMap) (tc1 tc2 : Typecaster) (u1 u2 : Value)
    (hnodup : (environ.map Prod.fst).Nodup)
    (h1 : (pfxS ++ k1, v1) ∈ environ) (h2 : (pfxS ++ k2, v2) ∈ environ)
    (hs1 : lookupD spec k1 = some tc1) (hs2 : lookupD spec k2 = some tc2)
    (hok1 : tc1 v1 = Except.ok u1) (hok2 : tc2 v2 = Except.ok u2)
    (hlow : pyLower k1 = pyLower k2) (hne : k1 ≠ k2)
    (hlt : lexLtB (pfxS ++ k1).data (pfxS ++ k2).data = true)
    (hnowriter : ∀ e ∈ environ, e.1 ≠ pfxS ++ k1 → e.1 ≠ pfxS ++ k2 →
        writesKeyB pfxS spec (pyLower k2) e = false) :
    lookupD (parse pfxS spec environ).2.2 (pyLower k2) = some u2 ∧
    ((parse pfxS spec environ).2.2.map Prod.fst).Nodup := by
  refine ⟨?_, parse_parsed_nodup_keys pfxS spec environ⟩
  have hoke : okEntry pfxS spec (pfxS ++ k2, v2) = some (pyLower k2, u2) := by
    simp [okEntry, startsW_append, dropPfx_append, hs2, hok2]
  apply lookupD_parse_last_writer pfxS spec environ hnodup h2 hoke
  intro e hemem hne2 hle
  by_cases he1 : e.1 = pfxS ++ k1
  · exfalso
    have hnamele : lexLeB (pfxS ++ k2).data e.1.data = true := pairLe_name_le hle
    rw [he1, lexLtB_not_le hlt] at hnamele
    cases hnamele
  · exact hnowriter e hemem he1 hne2

/-- Witness for claim C10: spec keys `FOO` and `foo`, both present and both
casting successfully; `foo` sorts after `FOO`, so `parsed['foo']` holds the
value of entry `foo`, and the parsed dict has one entry for two successes. -/
theorem lower_collision_last_write_witness :
    pyLower "FOO" = pyLower "foo" ∧
    (lookupD (parse "" [("FOO", strCaster), ("foo", strCaster)]
        [("FOO", "x"), ("foo", "y")]).2.2 (pyLower "foo") = some (Value.vstr "y") ∧
     ((parse "" [("FOO", strCaster), ("foo", strCaster)]
        [("FOO", "x"), ("foo", "y")]).2.2.map Prod.fst).Nodup) ∧
    (parse "" [("FOO", strCaster), ("foo", strCaster)]
        [("FOO", "x"), ("foo", "y")]).2.2.length = 1 :=
  ⟨by decide,
   lower_collision_last_write "" "FOO" "foo" "x" "y"
     [("FOO", strCaster), ("foo", strCaster)] [("FOO", "x"), ("foo", "y")]
     strCaster strCaster (Value.vstr "x") (Value.vstr "y")
     (by decide) (by decide) (by decide) rfl rfl rfl rfl (by decide) (by decide)
     (by decide) (by decide),
   by decide⟩

/-- Claim C1, counterexample: (a) with a non-empty prefix, spec key `BAR`
appears in both the missing list and the parsed mapping; (b) with a non-empty
prefix, spec key `X` (present unprefixed in the environment) appears in no
output at all; (c) with lowercase-colliding spec keys `FOO` (failing) and
`foo` (succeeding), `FOO` appears in the malformed list while its derived
attribute path `foo` is also a key of the parsed mapping. -/
theorem parse_partition_counterexample :
    ("BAR" ∈ (parse "FOO_" [("BAR", strCaster)] [("FOO_BAR", "42")]).1 ∧
     hasKey (parse "FOO_" [("BAR", strCaster)] [("FOO_BAR", "42")]).2.2
       (pyLower "BAR") = true) ∧
    ((parse "P_" [("X", strCaster)] [("X", "v")]).1 = [] ∧
     (parse "P_" [("X", strCaster)] [("X", "v")]).2.1 = [] ∧
     (parse "P_" [("X", strCaster)] [("X", "v")]).2.2 = []) ∧
    (("FOO", "ValueError: invalid literal for int() with base 10: 'a'") ∈
        (parse "" [("FOO", valueErrorCaster), ("foo", strCaster)]
          [("FOO", "a"), ("foo", "b")]).2.1 ∧
     hasKey (parse "" [("FOO", valueErrorCaster), ("foo", strCaster)]
          [("FOO", "a"), ("foo", "b")]).2.2 (pyLower "FOO") = true) := by
  decide

/-- Claim C1 (amended): for the empty prefix, over an environment with
duplicate-free keys and a specification whose keys have pairwise-distinct
lowercasings, every specification key appears in exactly one of the three
outputs of `parse`: the missing list, the malformed list (under its name), or
the parsed mapping (under its lowercased derived attribute path). -/
theorem parse_partition_exactly_one (spec : SpecMap) (environ : EnvMap) (k : String)
    (hnodup : (environ.map Prod.fst).Nodup)
    (hinj : ∀ k1 ∈ specKeys spec, ∀ k2 ∈ specKeys spec, pyLower k1 = pyLower k2 → k1 = k2)
    (hk : k ∈ specKeys spec) :
    (k ∈ (parse "" spec environ).1 ∨ (∃ m, (k, m) ∈ (parse "" spec environ).2.1) ∨
       hasKey (parse "" spec environ).2.2 (pyLower k) = true) ∧
    ¬(k ∈ (parse "" spec environ).1 ∧ (∃ m, (k, m) ∈ (parse "" spec environ).2.1)) ∧
    ¬(k ∈ (parse "" spec environ).1 ∧
        hasKey (parse "" spec environ).2.2 (pyLower k) = true) ∧
    ¬((∃ m, (k, m) ∈ (parse "" spec environ).2.1) ∧
        hasKey (parse "" spec environ).2.2 (pyLower k) = true) := by
  have hkm : k ∈ spec.map Prod.fst := List.mem_dedup.mp hk
  obtain ⟨tc, htc⟩ := mem_keys_lookupD_isSome hkm
  have hmalfName : ∀ m, (k, m) ∈ (parse "" spec environ).2.1 →
      ∃ w, (k, w) ∈ environ ∧ ∃ ex, tc w = Except.error ex ∧ m = fmtExc ex := by
    intro m hm
    obtain ⟨e, hemem, hsome⟩ := malformed_mem_iff.mp hm
    obtain ⟨e1, e2⟩ := e
    have h1 : k = e1 := malfEntry_fst hsome
    subst h1
    rcases malfEntry_some_iff.mp hsome with ⟨-, tc2, ex, hl2, hv2, ha⟩
    rw [show dropPfx "" ((k, e2) : String × String).1 = k from dropPfx_empty k] at hl2
    have htc2 : tc2 = tc := Option.some.inj (hl2.symm.trans htc)
    subst htc2
    exact ⟨e2, hemem, ex, hv2, congrArg Prod.snd ha⟩
  have hparsName : hasKey (parse "" spec environ).2.2 (pyLower k) = true →
      ∃ w, (k, w) ∈ environ ∧ ∃ u, tc w = Except.ok u := by
    intro hp
    obtain ⟨e, hemem, hw⟩ := parsed_hasKey_iff.mp hp
    obtain ⟨kv, hkv, hkey⟩ := writesKeyB_iff.mp hw
    rcases okEntry_some_iff.mp hkv with ⟨-, tc2, u, hl2, hv2, hkveq⟩
    rw [dropPfx_empty] at hl2 hkveq
    have hlowe : pyLower e.1 = pyLower k := by
      rw [hkveq] at hkey
      exact hkey
    have he1 : e.1 ∈ specKeys spec := List.mem_dedup.mpr (lookupD_some_mem_keys hl2)
    have heq : e.1 = k := hinj e.1 he1 k hk hlowe
    obtain ⟨e1, e2⟩ := e
    simp only at heq hl2 hv2
    subst heq
    have htc2 : tc2 = tc := Option.some.inj (hl2.symm.trans htc)
    subst htc2
    exact ⟨e2, hemem, u, hv2⟩
  have hkeyT : ∀ w, (k, w) ∈ environ → hasKey environ k = true :=
    fun w hw => List.any_eq_true.mpr ⟨(k, w), hw, by simp⟩
  cases henv : hasKey environ k with
  | false =>
    refine ⟨Or.inl (missing_mem_iff.mpr ⟨hk, henv⟩), ?_, ?_, ?_⟩
    · rintro ⟨-, m, hm⟩
      obtain ⟨w, hw, -⟩ := hmalfName m hm
      rw [hkeyT w hw] at henv
      cases henv
    · rintro ⟨-, hp⟩
      obtain ⟨w, hw, -⟩ := hparsName hp
      rw [hkeyT w hw] at henv
      cases henv
    · rintro ⟨⟨m, hm⟩, -⟩
      obtain ⟨w, hw, -⟩ := hmalfName m hm
      rw [hkeyT w hw] at henv
      cases henv
  | true =>
    have hnotmiss : k ∉ (parse "" spec environ).1 := by
      intro hmm
      have := (missing_mem_iff.mp hmm).2
      rw [henv] at this
      cases this
    obtain ⟨e, hemem, hdec⟩ := List.any_eq_true.mp henv
    obtain ⟨e1, e2⟩ := e
    have he1 : e1 = k := by simpa using hdec
    subst he1
    cases hv : tc e2 with
    | error ex =>
      have hmalf : ((e1 : String), fmtExc ex) ∈ (parse "" spec environ).2.1 := by
        apply malformed_mem_iff.mpr
        refine ⟨(e1, e2), hemem, malfEntry_some_iff.mpr ⟨rfl, tc, ex, ?_, hv, rfl⟩⟩
        rw [show dropPfx "" ((e1, e2) : String × String).1 = e1 from dropPfx_empty e1]
        exact htc
      have hnotpars : ¬ hasKey (parse "" spec environ).2.2 (pyLower e1) = true := by
        intro hp
        obtain ⟨w, hw, u, hu⟩ := hparsName hp
        have hwe : w = e2 := nodupKeys_snd_eq hnodup hw hemem
        subst hwe
        rw [hv] at hu
        cases hu
      exact ⟨Or.inr (Or.inl ⟨fmtExc ex, hmalf⟩),
        fun h => hnotmiss h.1, fun h => hnotmiss h.1, fun h => hnotpars h.2⟩
    | ok u =>
      have hpars : hasKey (parse "" spec environ).2.2 (pyLower e1) = true := by
        apply parsed_hasKey_iff.mpr
        refine ⟨(e1, e2), hemem, writesKeyB_iff.mpr
          ⟨(pyLower e1, u), okEntry_some_iff.mpr ⟨rfl, tc, u, ?_, hv, ?_⟩, rfl⟩⟩
        · rw [show dropPfx "" ((e1, e2) : String × String).1 = e1 from dropPfx_empty e1]
          exact htc
        · rw [show dropPfx "" ((e1, e2) : String × String).1 = e1 from dropPfx_empty e1]
      have hnotmalf : ¬ ∃ m, ((e1 : String), m) ∈ (parse "" spec environ).2.1 := by
        rintro ⟨m, hm⟩
        obtain ⟨w, hw, ex, hex, -⟩ := hmalfName m hm
        have hwe : w = e2 := nodupKeys_snd_eq hnodup hw hemem
        subst hwe
        rw [hv] at hex
        cases hex
      exact ⟨Or.inr (Or.inr hpars),
        fun h => hnotmiss h.1, fun h => hnotmiss h.1, fun h => hnotmalf h.1⟩

/-- Witness for claim C1 (amended) on the tutorial scenario: spec
`{FOO: str, BLAH: str, BAD: int}`, environ `{FOO: "42", BAD: "to the bone"}`,
at spec key `FOO`. -/
theorem parse_partition_exactly_one_witness :
    ("FOO" ∈ specKeys [("FOO", strCaster), ("BLAH", strCaster), ("BAD", valueErrorCaster)]) ∧
    (("FOO" ∈ (parse "" [("FOO", strCaster), ("BLAH", strCaster), ("BAD", valueErrorCaster)]
          [("FOO", "42"), ("BAD", "to the bone")]).1 ∨
      (∃ m, ("FOO", m) ∈
        (parse "" [("FOO", strCaster), ("BLAH", strCaster), ("BAD", valueErrorCaster)]
          [("FOO", "42"), ("BAD", "to the bone")]).2.1) ∨
      hasKey (parse "" [("FOO", strCaster), ("BLAH", strCaster), ("BAD", valueErrorCaster)]
          [("FOO", "42"), ("BAD", "to the bone")]).2.2 (pyLower "FOO") = true) ∧
     ¬("FOO" ∈ (parse "" [("FOO", strCaster), ("BLAH", strCaster), ("BAD", valueErrorCaster)]
          [("FOO", "42"), ("BAD", "to the bone")]).1 ∧
       (∃ m, ("FOO", m) ∈
        (parse "" [("FOO", strCaster), ("BLAH", strCaster), ("BAD", valueErrorCaster)]
          [("FOO", "42"), ("BAD", "to the bone")]).2.1)) ∧
     ¬("FOO" ∈ (parse "" [("FOO", strCaster), ("BLAH", strCaster), ("BAD", valueErrorCaster)]
          [("FOO", "42"), ("BAD", "to the bone")]).1 ∧
       hasKey (parse "" [("FOO", strCaster), ("BLAH", strCaster), ("BAD", valueErrorCaster)]
          [("FOO", "42"), ("BAD", "to the bone")]).2.2 (pyLower "FOO") = true) ∧
     ¬((∃ m, ("FOO", m) ∈
        (parse "" [("FOO", strCaster), ("BLAH", strCaster), ("BAD", valueErrorCaster)]
          [("FOO", "42"), ("BAD", "to the bone")]).2.1) ∧
       hasKey (parse "" [("FOO", strCaster), ("BLAH", strCaster), ("BAD", valueErrorCaster)]
          [("FOO", "42"), ("BAD", "to the bone")]).2.2 (pyLower "FOO") = true)) :=
  ⟨by decide,
   parse_partition_exactly_one
     [("FOO", strCaster), ("BLAH", strCaster), ("BAD", valueErrorCaster)]
     [("FOO", "42"), ("BAD", "to the bone")] "FOO"
     (by decide) (by decide) (by decide)⟩

end EnvPy
